import Mathlib

/-!
Verification of the particle-in-a-box simulation core (`src/sim.py`).

The simulation advances `N` point particles in a square box `[0, box_size]²`
with a fixed-step RK4 integrator, handling wall collisions by sub-stepping to
the crossing point and reflecting the normal velocity component
(single bounce per step).  Each step maps `compute_particle` over all particle
indices against a frozen snapshot of the old ensemble, writes the indexed
results into a second buffer, swaps the buffers, and emits `(t, ensemble)`
pairs to an output sink.

Scalars are modelled as exact rationals standing in for the double-precision
reals of the source.  `sim.py` imports the modules `box`, `rk4`, `eqnmotion`,
`const` and `output`, which are not part of the sources; their definitions
below are modelled from the specification and marked as such.
-/

/-- A particle state `[x, y, vx, vy]`: position and velocity, as in the rows
of the `particles_s_old` array of `sim.py`. -/
structure PState where
  x : ℚ
  y : ℚ
  vx : ℚ
  vy : ℚ
deriving DecidableEq, Repr, Inhabited

instance : Add PState :=
  ⟨fun a b => ⟨a.x + b.x, a.y + b.y, a.vx + b.vx, a.vy + b.vy⟩⟩

instance : SMul ℚ PState :=
  ⟨fun c a => ⟨c * a.x, c * a.y, c * a.vx, c * a.vy⟩⟩

/-- The four walls of the box, the `where` values returned by crossing
detection. -/
inductive Wall where
  | left
  | right
  | bottom
  | top
deriving DecidableEq, Repr

/-- Modelled from the spec: the box geometry held by the `box.box` class
(module `box` is imported by `sim.py` but missing from the sources).
`sim.py` constructs `box.box(0.0, box_size, 0.0, box_size)`. -/
structure Box where
  xmin : ℚ
  xmax : ℚ
  ymin : ℚ
  ymax : ℚ
deriving DecidableEq, Repr

/-- Modelled from the spec: the crossing fraction of the straight-line
segment from coordinate `a` to coordinate `b` against the wall plane at
coordinate `w`; it is reported only when it lies in `(0, 1]`. -/
def crossFrac (a b w : ℚ) : Option ℚ :=
  if a = b then none
  else
    let l := (w - a) / (b - a)
    if 0 < l ∧ l ≤ 1 then some l else none

/-- Modelled from the spec: fold step choosing the wall with the smallest
positive crossing fraction; on ties the earlier wall in the candidate list
wins (fixed wall-priority tie-break). -/
def pickNearer (acc : Option (Wall × ℚ)) (c : Wall × Option ℚ) :
    Option (Wall × ℚ) :=
  match c.2 with
  | none => acc
  | some l =>
    match acc with
    | none => some (c.1, l)
    | some wl => if l < wl.2 then some (c.1, l) else acc

/-- Modelled from the spec: `box.left_box(s_old, s_new)` — detect whether the
straight segment between the old and new positions leaves the box, returning
the first wall crossed together with its crossing fraction λ ∈ (0,1], or
`none` when the segment stays inside. -/
def Box.left_box (bx : Box) (sold snew : PState) : Option (Wall × ℚ) :=
  [(Wall.left, crossFrac sold.x snew.x bx.xmin),
   (Wall.right, crossFrac sold.x snew.x bx.xmax),
   (Wall.bottom, crossFrac sold.y snew.y bx.ymin),
   (Wall.top, crossFrac sold.y snew.y bx.ymax)].foldl pickNearer none

/-- Modelled from the spec: `box.box.reflect(state, wall)` — negate the
velocity component normal to the wall, keep the tangential component and the
position. -/
def Box.reflect (s : PState) (w : Wall) : PState :=
  match w with
  | Wall.left => ⟨s.x, s.y, -s.vx, s.vy⟩
  | Wall.right => ⟨s.x, s.y, -s.vx, s.vy⟩
  | Wall.bottom => ⟨s.x, s.y, s.vx, -s.vy⟩
  | Wall.top => ⟨s.x, s.y, s.vx, -s.vy⟩

/-- Modelled from the spec: `rk4.rk4_step(f, s, context, index, h)` — the
classical four-stage RK4 increment for step size `h`, every stage evaluating
the derivative against the same frozen `ctx` ensemble. The caller adds the
returned increment to `s`. -/
def rk4_step (f : PState → List PState → ℕ → PState) (s : PState)
    (ctx : List PState) (idx : ℕ) (h : ℚ) : PState :=
  let k1 := f s ctx idx
  let k2 := f (s + (h / 2) • k1) ctx idx
  let k3 := f (s + (h / 2) • k2) ctx idx
  let k4 := f (s + h • k3) ctx idx
  (h / 6) • (k1 + (2 : ℚ) • k2 + (2 : ℚ) • k3 + k4)

/-- Modelled from the spec: `eqnmotion.eqnmotion(state, ensemble, index)` —
the derivative `(vx, vy, ax, ay)`: velocities pass through, accelerations sum
a configurable pairwise interaction `law` over all particles other than
`idx` (self-term excluded). The exact law is an external parameter. -/
def eqnmotion (law : PState → PState → ℚ × ℚ) (s : PState)
    (ens : List PState) (idx : ℕ) : PState :=
  let acc := ((List.range ens.length).filter (fun j => j ≠ idx)).foldl
    (fun a j =>
      let f := law s (ens.getD j default)
      (a.1 + f.1, a.2 + f.2)) ((0 : ℚ), (0 : ℚ))
  ⟨s.vx, s.vy, acc.1, acc.2⟩

/-- `compute_particle(idx, particles)` from `src/sim.py`, parameterized by the
interaction law, the step size `dt` and the box (globals of the source).
One full-dt RK4 candidate step; if the candidate trajectory leaves the box,
sub-step to the intersection, reflect, and take the remaining sub-step — all
RK4 evaluations against the frozen `particles` snapshot, with no second
crossing check. -/
def compute_particle (law : PState → PState → ℚ × ℚ) (dt : ℚ) (bx : Box)
    (idx : ℕ) (particles : List PState) : ℕ × PState :=
  let s_old := particles.getD idx default
  let s_new := s_old + rk4_step (eqnmotion law) s_old particles idx dt
  match bx.left_box s_old s_new with
  | none => (idx, s_new)
  | some wl =>
    let s_inters := s_old +
      rk4_step (eqnmotion law) s_old particles idx (wl.2 * dt)
    let s_refl := Box.reflect s_inters wl.1
    (idx, s_refl +
      rk4_step (eqnmotion law) s_refl particles idx ((1 - wl.2) * dt))

/-- Writing the indexed results into the new-state buffer: the
`for idx, s_new in results: particles_s_new[idx, :] = s_new` loop of
`sim.py`. -/
def commitStep (results : List (ℕ × PState)) (buf : List PState) :
    List PState :=
  results.foldl (fun b r => b.set r.1 r.2) buf

/-- The per-step result list `pool.starmap(compute_particle, args)` with
`args = [(i, particles_s_old) for i in range(N)]` from `sim.py`. -/
def stepResults (law : PState → PState → ℚ × ℚ) (dt : ℚ) (bx : Box)
    (old : List PState) : List (ℕ × PState) :=
  (List.range old.length).map (fun i => compute_particle law dt bx i old)

/-- One committed step: all indexed results written over the buffer. -/
def stepWithBuf (law : PState → PState → ℚ × ℚ) (dt : ℚ) (bx : Box)
    (old buf : List PState) : List PState :=
  commitStep (stepResults law dt bx old) buf

/-- The buffer-free view of one committed step: the new states in index
order. When the buffer has the ensemble length, `stepWithBuf` agrees with
this. -/
def stepEnsemble (law : PState → PState → ℚ × ℚ) (dt : ℚ) (bx : Box)
    (old : List PState) : List PState :=
  (stepResults law dt bx old).map Prod.snd

/-- `total_steps = int(np.ceil(t_max / dt))` from `sim.py`. -/
def totalSteps (t_max dt : ℚ) : ℕ :=
  (⌈t_max / dt⌉ : ℤ).toNat

/-- The time-stepping loop of `sim.py`: with `r` steps remaining, step the
old ensemble over the buffer, swap buffers, advance the step counter, emit
`(t, ensemble)` with `t = current_step · dt`. -/
def driverAux (law : PState → PState → ℚ × ℚ) (dt : ℚ) (bx : Box) :
    ℕ → List PState → List PState → ℕ → List (ℚ × List PState)
  | 0, _, _, _ => []
  | r + 1, old, buf, stepIdx =>
    let newE := stepWithBuf law dt bx old buf
    (((stepIdx + 1 : ℕ) : ℚ) * dt, newE) ::
      driverAux law dt bx r newE old (stepIdx + 1)

/-- The driver of `sim.py`: emit the initial ensemble at `t = 0`, then run
`totalSteps t_max dt` committed steps, emitting after each. The sequence of
emitted `(t, ensemble)` pairs models the calls to `output(f, t,
particles_s_old)`. -/
def driverRun (law : PState → PState → ℚ × ℚ) (dt : ℚ) (bx : Box)
    (t_max : ℚ) (init buf : List PState) : List (ℚ × List PState) :=
  ((0 : ℚ), init) :: driverAux law dt bx (totalSteps t_max dt) init buf 0

/-- The zero interaction law (the spec leaves the pairwise law configurable,
explicitly allowing "none"). -/
def zeroLaw : PState → PState → ℚ × ℚ := fun _ _ => (0, 0)

/-- The unit box `[0,1]²`, a concrete `box.box(0, 1, 0, 1)`. -/
def unitBox : Box := ⟨0, 1, 0, 1⟩

/-- A fast rightward-moving particle at the centre of the unit box. -/
def pFast : PState := ⟨1 / 2, 1 / 2, 10, 0⟩

/-- A particle at rest at the centre of the unit box. -/
def pRest : PState := ⟨1 / 2, 1 / 2, 0, 0⟩

theorem PState.add_def (a b : PState) :
    a + b = ⟨a.x + b.x, a.y + b.y, a.vx + b.vx, a.vy + b.vy⟩ := rfl

theorem PState.smul_def (c : ℚ) (a : PState) :
    c • a = ⟨c * a.x, c * a.y, c * a.vx, c * a.vy⟩ := rfl

theorem eqnmotion_zeroLaw (s : PState) (ens : List PState) (idx : ℕ) :
    eqnmotion zeroLaw s ens idx = ⟨s.vx, s.vy, 0, 0⟩ := by
  unfold eqnmotion zeroLaw
  have hfold : ∀ (l : List ℕ),
      l.foldl (fun (a : ℚ × ℚ) _ => (a.1 + 0, a.2 + 0)) ((0 : ℚ), (0 : ℚ))
        = (0, 0) := by
    intro l
    induction l with
    | nil => rfl
    | cons hd tl ih => simp
  simp [hfold]

theorem rk4_zeroLaw (s : PState) (ctx : List PState) (idx : ℕ) (h : ℚ) :
    rk4_step (eqnmotion zeroLaw) s ctx idx h
      = ⟨h * s.vx, h * s.vy, 0, 0⟩ := by
  unfold rk4_step
  simp only [eqnmotion_zeroLaw, PState.add_def, PState.smul_def]
  simp only [PState.mk.injEq]
  refine ⟨by ring, by ring, by ring, by ring⟩

theorem compute_particle_fst (law : PState → PState → ℚ × ℚ) (dt : ℚ)
    (bx : Box) (idx : ℕ) (particles : List PState) :
    (compute_particle law dt bx idx particles).1 = idx := by
  cases h : bx.left_box (particles.getD idx default)
      (particles.getD idx default +
        rk4_step (eqnmotion law) (particles.getD idx default) particles idx
          dt) with
  | none =>
    simp only [compute_particle]
    rw [h]
  | some wl =>
    simp only [compute_particle]
    rw [h]

/-- C7: for every state at an intersection and every wall, `reflect` negates
exactly the velocity component normal to that wall (`vx` for the vertical
walls, `vy` for the horizontal walls) and leaves the tangential velocity
component and both position components unchanged. -/
theorem C7_reflect_law (s : PState) :
    Box.reflect s Wall.left = ⟨s.x, s.y, -s.vx, s.vy⟩ ∧
    Box.reflect s Wall.right = ⟨s.x, s.y, -s.vx, s.vy⟩ ∧
    Box.reflect s Wall.bottom = ⟨s.x, s.y, s.vx, -s.vy⟩ ∧
    Box.reflect s Wall.top = ⟨s.x, s.y, s.vx, -s.vy⟩ :=
  ⟨rfl, rfl, rfl, rfl⟩

/-- C10: `compute_particle` is a pure function of its index and ensemble
arguments (the embedding has no mutation, matching the source, which only
reads `particles`), and the index in the returned pair equals the index it
was given. -/
theorem C10_index_preserved (law : PState → PState → ℚ × ℚ) (dt : ℚ)
    (bx : Box) (idx : ℕ) (particles : List PState) :
    (compute_particle law dt bx idx particles).1 = idx :=
  compute_particle_fst law dt bx idx particles

/-- C2: when the full-dt candidate crosses a wall with fraction λ,
`compute_particle` recomputes an RK4 increment for sub-step λ·dt from the old
state with the frozen old-ensemble context, reflects at the wall, then
recomputes an RK4 increment for the remaining (1−λ)·dt from the reflected
state with the same frozen context; the result is committed with no second
crossing check on the remaining sub-step. -/
theorem C2_crossing_substep (law : PState → PState → ℚ × ℚ) (dt : ℚ)
    (bx : Box) (idx : ℕ) (particles : List PState) (w : Wall) (lam : ℚ)
    (hcross : bx.left_box (particles.getD idx default)
      (particles.getD idx default +
        rk4_step (eqnmotion law) (particles.getD idx default) particles idx
          dt) = some (w, lam)) :
    compute_particle law dt bx idx particles
      = (idx,
        Box.reflect (particles.getD idx default +
          rk4_step (eqnmotion law) (particles.getD idx default) particles idx
            (lam * dt)) w
        + rk4_step (eqnmotion law)
            (Box.reflect (particles.getD idx default +
              rk4_step (eqnmotion law) (particles.getD idx default) particles
                idx (lam * dt)) w)
            particles idx ((1 - lam) * dt)) := by
  simp only [compute_particle, hcross]

/-- C4: when no crossing is detected for the full-dt candidate,
`compute_particle` commits exactly the old state plus one single full-dt RK4
increment, with no sub-stepping or reflection. -/
theorem C4_no_crossing (law : PState → PState → ℚ × ℚ) (dt : ℚ)
    (bx : Box) (idx : ℕ) (particles : List PState)
    (hnone : bx.left_box (particles.getD idx default)
      (particles.getD idx default +
        rk4_step (eqnmotion law) (particles.getD idx default) particles idx
          dt) = none) :
    compute_particle law dt bx idx particles
      = (idx, particles.getD idx default +
          rk4_step (eqnmotion law) (particles.getD idx default) particles idx
            dt) := by
  simp only [compute_particle, hnone]

theorem pickNearer_eq_none (acc : Option (Wall × ℚ)) (c : Wall × Option ℚ) :
    pickNearer acc c = none ↔ acc = none ∧ c.2 = none := by
  rcases c with ⟨w, o⟩
  cases o with
  | none => simp [pickNearer]
  | some l =>
    cases acc with
    | none => simp [pickNearer]
    | some wl =>
      simp only [pickNearer]
      split <;> simp

theorem left_box_none_iff (bx : Box) (so sn : PState) :
    bx.left_box so sn = none ↔
      crossFrac so.x sn.x bx.xmin = none ∧
      crossFrac so.x sn.x bx.xmax = none ∧
      crossFrac so.y sn.y bx.ymin = none ∧
      crossFrac so.y sn.y bx.ymax = none := by
  simp only [Box.left_box, List.foldl_cons, List.foldl_nil, pickNearer_eq_none]
  tauto

theorem crossFrac_none_le (a b w : ℚ) (hcf : crossFrac a b w = none)
    (haw : a < w) : b ≤ w := by
  by_contra hbw
  push_neg at hbw
  have hab : a ≠ b := by linarith
  have hden : 0 < b - a := by linarith
  have hl1 : 0 < (w - a) / (b - a) := div_pos (by linarith) hden
  have hl2 : (w - a) / (b - a) ≤ 1 := by
    rw [div_le_one hden]
    linarith
  rw [crossFrac, if_neg hab, if_pos ⟨hl1, hl2⟩] at hcf
  exact Option.noConfusion hcf

theorem crossFrac_none_ge (a b w : ℚ) (hcf : crossFrac a b w = none)
    (haw : w < a) : w ≤ b := by
  by_contra hbw
  push_neg at hbw
  have hab : a ≠ b := by linarith
  have hflip : (w - a) / (b - a) = (a - w) / (a - b) := by
    rw [show w - a = -(a - w) by ring, show b - a = -(a - b) by ring,
      neg_div_neg_eq]
  have hden : 0 < a - b := by linarith
  have hl1 : 0 < (w - a) / (b - a) := by
    rw [hflip]
    exact div_pos (by linarith) hden
  have hl2 : (w - a) / (b - a) ≤ 1 := by
    rw [hflip, div_le_one hden]
    linarith
  rw [crossFrac, if_neg hab, if_pos ⟨hl1, hl2⟩] at hcf
  exact Option.noConfusion hcf

/-- C1 (amended): when no wall crossing is detected for a particle whose old
position is strictly inside the box, the committed position stays within the
box inclusive. (The original unconditional claim fails: the post-reflection
remaining sub-step is not crossing-checked and can leave the box.) -/
theorem C1_position_inside (law : PState → PState → ℚ × ℚ) (dt : ℚ)
    (bx : Box) (idx : ℕ) (particles : List PState)
    (hx1 : bx.xmin < (particles.getD idx default).x)
    (hx2 : (particles.getD idx default).x < bx.xmax)
    (hy1 : bx.ymin < (particles.getD idx default).y)
    (hy2 : (particles.getD idx default).y < bx.ymax)
    (hnone : bx.left_box (particles.getD idx default)
      (particles.getD idx default +
        rk4_step (eqnmotion law) (particles.getD idx default) particles idx
          dt) = none) :
    bx.xmin ≤ (compute_particle law dt bx idx particles).2.x ∧
    (compute_particle law dt bx idx particles).2.x ≤ bx.xmax ∧
    bx.ymin ≤ (compute_particle law dt bx idx particles).2.y ∧
    (compute_particle law dt bx idx particles).2.y ≤ bx.ymax := by
  have hres : compute_particle law dt bx idx particles
      = (idx, particles.getD idx default +
          rk4_step (eqnmotion law) (particles.getD idx default) particles idx
            dt) := by
    simp only [compute_particle, hnone]
  obtain ⟨h1, h2, h3, h4⟩ := (left_box_none_iff bx _ _).mp hnone
  rw [hres]
  exact ⟨crossFrac_none_ge _ _ _ h1 hx1, crossFrac_none_le _ _ _ h2 hx2,
    crossFrac_none_ge _ _ _ h3 hy1, crossFrac_none_le _ _ _ h4 hy2⟩

theorem pFast_cand :
    pFast + rk4_step (eqnmotion zeroLaw) pFast [pFast] 0 1
      = ⟨21 / 2, 1 / 2, 10, 0⟩ := by
  rw [rk4_zeroLaw]
  simp [pFast, PState.add_def]
  norm_num

theorem pFast_left_box :
    unitBox.left_box pFast
      (pFast + rk4_step (eqnmotion zeroLaw) pFast [pFast] 0 1)
      = some (Wall.right, 1 / 20) := by
  rw [pFast_cand]
  simp [Box.left_box, crossFrac, pickNearer, pFast, unitBox]
  norm_num

theorem pFast_step :
    compute_particle zeroLaw 1 unitBox 0 [pFast]
      = (0, ⟨-17 / 2, 1 / 2, -10, 0⟩) := by
  have h1 : ([pFast].getD 0 default) = pFast := rfl
  simp only [compute_particle, h1, pFast_left_box]
  simp only [rk4_zeroLaw, pFast, PState.add_def, Box.reflect]
  norm_num

theorem pRest_cand :
    pRest + rk4_step (eqnmotion zeroLaw) pRest [pRest] 0 1 = pRest := by
  rw [rk4_zeroLaw]
  simp [pRest, PState.add_def]

theorem pRest_left_box :
    unitBox.left_box pRest
      (pRest + rk4_step (eqnmotion zeroLaw) pRest [pRest] 0 1) = none := by
  rw [pRest_cand]
  simp [Box.left_box, crossFrac, pickNearer]

/-- C1 counterexample: a single particle starting at the centre of the unit
box with velocity (10, 0) and dt = 1 (with the zero interaction law, an
admissible configuration) has its position inside the box initially, yet the
ensemble committed and emitted after the first step places it at x = −17/2,
outside the box: the reflected remaining sub-step is never crossing-checked. -/
theorem C1_position_invariant_cex :
    (0 ≤ pFast.x ∧ pFast.x ≤ 1 ∧ 0 ≤ pFast.y ∧ pFast.y ≤ 1) ∧
    driverRun zeroLaw 1 unitBox 1 [pFast] [pRest]
      = [(0, [pFast]), (1, [⟨-17 / 2, 1 / 2, -10, 0⟩])] ∧
    (((driverRun zeroLaw 1 unitBox 1 [pFast] [pRest]).getD 1
        (0, [])).2.getD 0 default).x < 0 := by
  have htot : totalSteps 1 1 = 1 := by
    norm_num [totalSteps]
  have hstep : stepWithBuf zeroLaw 1 unitBox [pFast] [pRest]
      = [⟨-17 / 2, 1 / 2, -10, 0⟩] := by
    have hr : List.range ([pFast].length) = [0] := rfl
    simp only [stepWithBuf, stepResults, commitStep, hr, List.map_cons,
      List.map_nil, List.foldl_cons, List.foldl_nil, pFast_step]
    rfl
  have hrun : driverRun zeroLaw 1 unitBox 1 [pFast] [pRest]
      = [(0, [pFast]), (1, [⟨-17 / 2, 1 / 2, -10, 0⟩])] := by
    rw [driverRun, htot, driverAux]
    simp only [hstep, driverAux]
    norm_num
  refine ⟨?_, hrun, ?_⟩
  · constructor
    · norm_num [pFast]
    · refine ⟨by norm_num [pFast], by norm_num [pFast], by norm_num [pFast]⟩
  · rw [hrun]
    norm_num

/-- Witness for the amended C1 at a concrete input: a particle at rest at the
centre of the unit box. -/
theorem C1_position_inside_witness :
    unitBox.xmin ≤ (compute_particle zeroLaw 1 unitBox 0 [pRest]).2.x ∧
    (compute_particle zeroLaw 1 unitBox 0 [pRest]).2.x ≤ unitBox.xmax ∧
    unitBox.ymin ≤ (compute_particle zeroLaw 1 unitBox 0 [pRest]).2.y ∧
    (compute_particle zeroLaw 1 unitBox 0 [pRest]).2.y ≤ unitBox.ymax :=
  C1_position_inside zeroLaw 1 unitBox 0 [pRest]
    (by norm_num [pRest, unitBox]) (by norm_num [pRest, unitBox])
    (by norm_num [pRest, unitBox]) (by norm_num [pRest, unitBox])
    (by
      show unitBox.left_box pRest
        (pRest + rk4_step (eqnmotion zeroLaw) pRest [pRest] 0 1) = none
      exact pRest_left_box)

/-- Witness for C2 at a concrete input: the fast particle crosses the right
wall with λ = 1/20 and the committed state is the reflected two-sub-step
composition. -/
theorem C2_crossing_substep_witness :
    compute_particle zeroLaw 1 unitBox 0 [pFast]
      = (0,
        Box.reflect (pFast +
          rk4_step (eqnmotion zeroLaw) pFast [pFast] 0 ((1 / 20) * 1))
          Wall.right
        + rk4_step (eqnmotion zeroLaw)
            (Box.reflect (pFast +
              rk4_step (eqnmotion zeroLaw) pFast [pFast] 0 ((1 / 20) * 1))
              Wall.right)
            [pFast] 0 ((1 - 1 / 20) * 1)) :=
  C2_crossing_substep zeroLaw 1 unitBox 0 [pFast] Wall.right (1 / 20)
    (by
      show unitBox.left_box pFast
        (pFast + rk4_step (eqnmotion zeroLaw) pFast [pFast] 0 1)
          = some (Wall.right, 1 / 20)
      exact pFast_left_box)

/-- Witness for C4 at a concrete input: the resting particle has no crossing
and commits exactly the single full-dt RK4 step. -/
theorem C4_no_crossing_witness :
    compute_particle zeroLaw 1 unitBox 0 [pRest]
      = (0, pRest + rk4_step (eqnmotion zeroLaw) pRest [pRest] 0 1) :=
  C4_no_crossing zeroLaw 1 unitBox 0 [pRest]
    (by
      show unitBox.left_box pRest
        (pRest + rk4_step (eqnmotion zeroLaw) pRest [pRest] 0 1) = none
      exact pRest_left_box)

theorem commitStep_map_perm (g : ℕ → ℕ × PState) (hg : ∀ i, (g i).1 = i)
    (l1 l2 : List ℕ) (hp : l1.Perm l2) (hnd : l1.Nodup) :
    ∀ buf : List PState,
      commitStep (l1.map g) buf = commitStep (l2.map g) buf := by
  induction hp with
  | nil => intro buf; rfl
  | cons x _ ih =>
    intro buf
    simp only [List.map_cons, commitStep, List.foldl_cons] at *
    exact ih (List.Nodup.of_cons hnd) _
  | swap x y l =>
    intro buf
    have hxy : y ≠ x := by
      have := List.rel_of_pairwise_cons hnd (List.mem_cons_self x l)
      exact this
    simp only [List.map_cons, commitStep, List.foldl_cons]
    rw [hg x, hg y, List.set_comm _ _ _ hxy]
  | trans h1 _ ih1 ih2 =>
    intro buf
    exact (ih1 hnd buf).trans (ih2 ((h1.nodup_iff).mp hnd) buf)

theorem commitStep_range (g : ℕ → PState) :
    ∀ (n : ℕ) (buf : List PState), n ≤ buf.length →
      commitStep ((List.range n).map (fun i => (i, g i))) buf
        = (List.range n).map g ++ buf.drop n := by
  intro n
  induction n with
  | zero => intro buf _; simp [commitStep]
  | succ n ih =>
    intro buf hlen
    have hn : n < buf.length := Nat.lt_of_succ_le hlen
    rw [List.range_succ, List.map_append, List.map_append]
    simp only [List.map_cons, List.map_nil, commitStep, List.foldl_append,
      List.foldl_cons, List.foldl_nil]
    have ihh := ih buf (Nat.le_of_lt hn)
    simp only [commitStep] at ihh
    rw [ihh]
    rw [List.set_append_right _ _ (by simp)]
    simp only [List.length_map, List.length_range, Nat.sub_self]
    rw [List.drop_eq_getElem_cons hn, List.set_cons_zero]
    simp [List.append_assoc]

theorem stepResults_eq_map (law : PState → PState → ℚ × ℚ) (dt : ℚ)
    (bx : Box) (old : List PState) :
    stepResults law dt bx old
      = (List.range old.length).map
          (fun i => (i, (compute_particle law dt bx i old).2)) := by
  unfold stepResults
  refine List.map_congr_left ?_
  intro i _
  refine Prod.ext ?_ rfl
  simp [compute_particle_fst]

theorem stepWithBuf_eq_append (law : PState → PState → ℚ × ℚ) (dt : ℚ)
    (bx : Box) (old buf : List PState) (hlen : old.length ≤ buf.length) :
    stepWithBuf law dt bx old buf
      = stepEnsemble law dt bx old ++ buf.drop old.length := by
  rw [stepWithBuf, stepResults_eq_map,
    commitStep_range (fun i => (compute_particle law dt bx i old).2) _ _ hlen]
  congr 1
  rw [stepEnsemble, stepResults_eq_map, List.map_map]
  rfl

theorem stepWithBuf_eq (law : PState → PState → ℚ × ℚ) (dt : ℚ) (bx : Box)
    (old buf : List PState) (hlen : buf.length = old.length) :
    stepWithBuf law dt bx old buf = stepEnsemble law dt bx old := by
  rw [stepWithBuf_eq_append law dt bx old buf (le_of_eq hlen.symm), ← hlen,
    List.drop_length, List.append_nil]

theorem stepEnsemble_length (law : PState → PState → ℚ × ℚ) (dt : ℚ)
    (bx : Box) (old : List PState) :
    (stepEnsemble law dt bx old).length = old.length := by
  simp [stepEnsemble, stepResults]

/-- C3: executing the per-particle updates of one step in any order yields an
identical committed ensemble: each task depends only on its index and the
frozen old snapshot, and its result is written to the slot named by its
returned index, so any permutation of the task order commits the same new
buffer as the in-order schedule. -/
theorem C3_order_independent (law : PState → PState → ℚ × ℚ) (dt : ℚ)
    (bx : Box) (old buf : List PState) (order : List ℕ)
    (hperm : order.Perm (List.range old.length)) :
    commitStep (order.map (fun i => compute_particle law dt bx i old)) buf
      = stepWithBuf law dt bx old buf :=
  commitStep_map_perm (fun i => compute_particle law dt bx i old)
    (fun i => compute_particle_fst law dt bx i old) order
    (List.range old.length) hperm
    (hperm.nodup_iff.mpr (List.nodup_range _)) buf

/-- Witness for C3 at a concrete input: a two-particle ensemble updated in
the reversed order commits the same buffer as the in-order schedule. -/
theorem C3_order_independent_witness :
    commitStep
        ([1, 0].map (fun i => compute_particle zeroLaw 1 unitBox i
          [pRest, pFast])) [pRest, pRest]
      = stepWithBuf zeroLaw 1 unitBox [pRest, pFast] [pRest, pRest] :=
  C3_order_independent zeroLaw 1 unitBox [pRest, pFast] [pRest, pRest]
    [1, 0] (by decide)

theorem driverAux_eq (law : PState → PState → ℚ × ℚ) (dt : ℚ) (bx : Box) :
    ∀ (r : ℕ) (old buf : List PState) (s : ℕ),
      buf.length = old.length →
      driverAux law dt bx r old buf s
        = (List.range r).map (fun j =>
            (((s + 1 + j : ℕ) : ℚ) * dt,
              (stepEnsemble law dt bx)^[j + 1] old)) := by
  intro r
  induction r with
  | zero => intro old buf s _; rfl
  | succ r ih =>
    intro old buf s hlen
    simp only [driverAux]
    rw [stepWithBuf_eq law dt bx old buf hlen,
      ih (stepEnsemble law dt bx old) old (s + 1)
        (stepEnsemble_length law dt bx old).symm,
      List.range_succ_eq_map, List.map_cons, List.map_map]
    simp only [List.cons.injEq]
    refine ⟨by simp, ?_⟩
    refine List.map_congr_left ?_
    intro j _
    have harith : s + 1 + 1 + j = s + 1 + (j + 1) := by omega
    refine Prod.ext ?_ ?_
    · simp only [harith, Function.comp_apply]
    · simp only [Function.comp_apply]
      exact (Function.iterate_succ_apply (stepEnsemble law dt bx) (j + 1)
        old).symm

theorem driverRun_closed (law : PState → PState → ℚ × ℚ) (dt : ℚ) (bx : Box)
    (t_max : ℚ) (init buf : List PState) (hbuf : buf.length = init.length) :
    driverRun law dt bx t_max init buf
      = (List.range (totalSteps t_max dt + 1)).map (fun (k : ℕ) =>
          ((k : ℚ) * dt, (stepEnsemble law dt bx)^[k] init)) := by
  rw [driverRun, driverAux_eq law dt bx _ init buf 0 hbuf,
    List.range_succ_eq_map, List.map_cons, List.map_map]
  simp only [List.cons.injEq]
  refine ⟨by simp, ?_⟩
  refine List.map_congr_left ?_
  intro j _
  have harith : 0 + 1 + j = j + 1 := by omega
  refine Prod.ext ?_ rfl
  simp only [harith, Function.comp_apply]

theorem stepEnsemble_iterate_length (law : PState → PState → ℚ × ℚ) (dt : ℚ)
    (bx : Box) (init : List PState) (k : ℕ) :
    ((stepEnsemble law dt bx)^[k] init).length = init.length := by
  induction k with
  | zero => rfl
  | succ k ih =>
    rw [Function.iterate_succ_apply', stepEnsemble_length, ih]

/-- C5: the driver runs exactly `⌈t_max/dt⌉` steps and the output sink
receives the ordered sequence of `⌈t_max/dt⌉ + 1` pairs: the initial
ensemble at `t = 0` (index `k = 0`), then after each step `k` the committed
ensemble at `t = k·dt`. -/
theorem C5_driver_trace (law : PState → PState → ℚ × ℚ) (dt : ℚ) (bx : Box)
    (t_max : ℚ) (init buf : List PState)
    (hbuf : buf.length = init.length) :
    (driverRun law dt bx t_max init buf).length = totalSteps t_max dt + 1 ∧
    driverRun law dt bx t_max init buf
      = (List.range (totalSteps t_max dt + 1)).map (fun (k : ℕ) =>
          ((k : ℚ) * dt, (stepEnsemble law dt bx)^[k] init)) := by
  have h := driverRun_closed law dt bx t_max init buf hbuf
  refine ⟨?_, h⟩
  rw [h]
  simp

/-- Witness for C5 at a concrete input. -/
theorem C5_driver_trace_witness :
    (driverRun zeroLaw 1 unitBox 2 [pRest] [pFast]).length
        = totalSteps 2 1 + 1 ∧
    driverRun zeroLaw 1 unitBox 2 [pRest] [pFast]
      = (List.range (totalSteps 2 1 + 1)).map (fun (k : ℕ) =>
          ((k : ℚ) * 1, (stepEnsemble zeroLaw 1 unitBox)^[k] [pRest])) :=
  C5_driver_trace zeroLaw 1 unitBox 2 [pRest] [pFast] rfl

/-- C6: after every committed step the emitted ensemble has exactly N
states: the trace's ensembles all have length N (one result per index is
written over the length-N buffer before the swap). -/
theorem C6_ensemble_size (law : PState → PState → ℚ × ℚ) (dt : ℚ) (bx : Box)
    (t_max : ℚ) (init buf : List PState) (N : ℕ)
    (hinit : init.length = N) (hbuf : buf.length = N) :
    (driverRun law dt bx t_max init buf).map (fun p => p.2.length)
      = List.replicate (totalSteps t_max dt + 1) N := by
  rw [driverRun_closed law dt bx t_max init buf (by rw [hbuf, hinit]),
    List.map_map]
  have hlen : ∀ k, ((stepEnsemble law dt bx)^[k] init).length = N := by
    intro k
    rw [stepEnsemble_iterate_length, hinit]
  calc (List.range (totalSteps t_max dt + 1)).map
        ((fun p : ℚ × List PState => p.2.length) ∘ fun (k : ℕ) =>
          ((k : ℚ) * dt, (stepEnsemble law dt bx)^[k] init))
      = (List.range (totalSteps t_max dt + 1)).map (fun _ => N) := by
        refine List.map_congr_left ?_
        intro k _
        exact hlen k
    _ = List.replicate (totalSteps t_max dt + 1) N := by
        rw [List.map_const']
        simp

/-- Witness for C6 at a concrete input. -/
theorem C6_ensemble_size_witness :
    (driverRun zeroLaw 1 unitBox 1 [pRest, pRest] [pFast, pFast]).map
        (fun p => p.2.length)
      = List.replicate (totalSteps 1 1 + 1) 2 :=
  C6_ensemble_size zeroLaw 1 unitBox 1 [pRest, pRest] [pFast, pFast] 2
    rfl rfl

/-- C9: the committed and emitted trace is independent of the initial
contents of the write buffer: two runs differing only in the initial values
stored in the new-state buffer emit identical (time, ensemble) sequences,
because every slot is overwritten from the task results before each swap. -/
theorem C9_buffer_independent (law : PState → PState → ℚ × ℚ) (dt : ℚ)
    (bx : Box) (t_max : ℚ) (init buf1 buf2 : List PState)
    (h1 : buf1.length = init.length) (h2 : buf2.length = init.length) :
    driverRun law dt bx t_max init buf1
      = driverRun law dt bx t_max init buf2 := by
  rw [driverRun_closed law dt bx t_max init buf1 h1,
    driverRun_closed law dt bx t_max init buf2 h2]

/-- Witness for C9 at a concrete input: two different initial write buffers
produce the same trace. -/
theorem C9_buffer_independent_witness :
    driverRun zeroLaw 1 unitBox 1 [pFast] [pRest]
      = driverRun zeroLaw 1 unitBox 1 [pFast] [pFast] :=
  C9_buffer_independent zeroLaw 1 unitBox 1 [pFast] [pRest] [pFast]
    rfl rfl
